import Mathlib

/-!
Shallow embedding of the worker-pool load balancer (`http-proxy-listener.js`,
files `src/unnamed/part_000` / `part_001`; `part_001` is the later revision and
the one the claims cite).

The program keeps a registry of backend workers synced from a Firebase
`on("value")` feed and serves every inbound HTTP request / WebSocket upgrade by
round-robin over the registry, ordered ascending by a normalized `upload_at`
timestamp.

Modelling decisions, recorded next to the definitions they concern:
* JS `Map` is modelled as an association `List Worker` that preserves insertion
  order (`Map.set` replaces in place or appends; `Map.delete` removes the
  single entry).
* `Array.prototype.sort((a,b) => a.upload_at - b.upload_at)` is a stable
  ascending sort; it is modelled with `List.insertionSort` on `upload_at ≤`,
  which is stable and sorts ascending.
* `Date.now()` is passed in explicitly as `now : Int`; `Date.parse` is an
  explicit parameter `parse : String → Option Int` (`none` models `NaN`).
* JS values that can appear as a raw `upload_at` are modelled by `RawVal`;
  a non-finite number (`NaN`, `±Infinity`) gets its own constructor because the
  source tests `Number.isFinite`.
-/

/-- A stored worker record, as built by `WorkerPool.updateWorker`. -/
structure Worker where
  key : String
  url : String
  upload_at : Int
  version : String
  runner_by : String
deriving DecidableEq, Repr

/-- A raw JS value in the `upload_at` field of a snapshot entry.
`num` is a finite number, `numNonFinite` a number failing `Number.isFinite`,
`objSv` the placeholder object whose `".sv"` field is `"timestamp"`,
`objOther` any other (truthy) object, `other` everything else
(null, undefined, booleans, ...). -/
inductive RawVal where
  | num (n : Int)
  | numNonFinite
  | str (s : String)
  | objSv
  | objOther
  | other
deriving DecidableEq, Repr

/-- `normalizeUploadAt` from the source: a finite number is kept, a string is
`Date.parse`d (falling back to `Date.now()`), the `{".sv":"timestamp"}`
placeholder and everything else fall back to `Date.now()`. -/
def normalizeUploadAt (parse : String → Option Int) (now : Int) : RawVal → Int
  | .num n => n
  | .numNonFinite => now
  | .str s =>
    match parse s with
    | some t => t
    | none => now
  | .objSv => now
  | .objOther => now
  | .other => now

/-- A raw snapshot entry body (the JS object stored under a key in the
`worker-stats` snapshot). `url = ""` models a missing or empty `url`
(both are falsy in JS); likewise `version = ""` / `runner_by = ""` model
missing fields, which the source defaults with `|| "unknown"`. -/
structure RawWorker where
  url : String
  upload_at : RawVal
  version : String
  runner_by : String
deriving DecidableEq, Repr

/-- The comparable projection built by `WorkerPool._toComparable` /
`_snapshotComparableMap`. -/
structure Comparable where
  url : String
  upload_at : Int
  version : String
  runner_by : String
deriving DecidableEq, Repr

/-- `WorkerPool._toComparable`: `null`/falsy data gives `null`; otherwise the
fields are normalized (`url || ""`, `normalizeUploadAt`, `|| "unknown"`). -/
def toComparable (parse : String → Option Int) (now : Int) :
    Option RawWorker → Option Comparable
  | none => none
  | some d => some
      { url := d.url
        upload_at := normalizeUploadAt parse now d.upload_at
        version := if d.version = "" then "unknown" else d.version
        runner_by := if d.runner_by = "" then "unknown" else d.runner_by }

/-- One entry of `WorkerPool._snapshotComparableMap` (`w.url || ""` and
`w.upload_at || 0` are identities on the stored string/integer fields). -/
def comparableOfWorker (w : Worker) : Comparable :=
  { url := w.url
    upload_at := w.upload_at
    version := if w.version = "" then "unknown" else w.version
    runner_by := if w.runner_by = "" then "unknown" else w.runner_by }

/-- Comparison used by `.sort((a, b) => a.upload_at - b.upload_at)`. -/
def uploadLE (a b : Worker) : Prop := a.upload_at ≤ b.upload_at

instance : DecidableRel uploadLE := fun a b => inferInstanceAs (Decidable (a.upload_at ≤ b.upload_at))

instance : IsTotal Worker uploadLE := ⟨fun a b => Int.le_total a.upload_at b.upload_at⟩

instance : IsTrans Worker uploadLE := ⟨fun _ _ _ => Int.le_trans⟩

/-- The stable ascending sort of `Array.prototype.sort` on `upload_at`. -/
def sortByUploadAt (ws : List Worker) : List Worker := List.insertionSort uploadLE ws

/-- `workers.get(key)` on the association-list model of the JS `Map`. -/
def findWorker (ws : List Worker) (k : String) : Option Worker :=
  ws.find? (fun w => w.key == k)

/-- `workers.set(key, next)`: replace in place if the key exists (keeping the
map's insertion order), otherwise append. -/
def setWorker (w : Worker) : List Worker → List Worker
  | [] => [w]
  | x :: xs => if x.key = w.key then w :: xs else x :: setWorker w xs

/-- `workers.delete(key)`: remove the (unique) entry with that key. -/
def eraseWorker (k : String) : List Worker → List Worker
  | [] => []
  | x :: xs => if x.key = k then xs else x :: eraseWorker k xs

/-- `WorkerPool`'s mutable state: the `workers` map, the derived
`sortedKeys` list and the round-robin `currentIndex`. -/
structure Pool where
  workers : List Worker
  sortedKeys : List String
  currentIndex : Nat
deriving DecidableEq, Repr

/-- The constructor state: empty map, empty order, cursor 0. -/
def Pool.init : Pool := ⟨[], [], 0⟩

/-- `WorkerPool._resort`: recompute `sortedKeys` from the map, then restore the
cursor: keep pointing at the previously pointed-to key when it survives
(`indexOf`, with `-1` mapped to `0`), otherwise clamp an out-of-range index to
`0`.  The JS truthiness test `if (currentKey)` is false both when the old index
was out of range (`undefined`) and when the key is the empty string. -/
def _resort (p : Pool) : Pool :=
  let currentKey? := p.sortedKeys[p.currentIndex]?
  let sk := (sortByUploadAt p.workers).map Worker.key
  if sk.length = 0 then
    { p with sortedKeys := sk, currentIndex := 0 }
  else
    match currentKey? with
    | some ck =>
      if ck ≠ "" then
        { p with sortedKeys := sk
                 currentIndex := if ck ∈ sk then sk.indexOf ck else 0 }
      else
        { p with sortedKeys := sk
                 currentIndex := if sk.length ≤ p.currentIndex then 0 else p.currentIndex }
    | none =>
      { p with sortedKeys := sk
               currentIndex := if sk.length ≤ p.currentIndex then 0 else p.currentIndex }

/-- `WorkerPool.updateWorker` (part_001): reject falsy data or a falsy url,
otherwise build the normalized record, store it, optionally resort, and report
whether anything changed (`true` for a fresh key, otherwise a field-wise
comparison with the previous record). Logging is elided. -/
def updateWorker (parse : String → Option Int) (now : Int) (key : String)
    (data : Option RawWorker) (resort : Bool) (p : Pool) : Pool × Bool :=
  match data with
  | none => (p, false)
  | some d =>
    if d.url = "" then (p, false)
    else
      let uploadAt := normalizeUploadAt parse now d.upload_at
      let prev := findWorker p.workers key
      let nxt : Worker :=
        { key := key
          url := d.url
          upload_at := uploadAt
          version := if d.version = "" then "unknown" else d.version
          runner_by := if d.runner_by = "" then "unknown" else d.runner_by }
      let p1 := { p with workers := setWorker nxt p.workers }
      let p2 := if resort then _resort p1 else p1
      match prev with
      | none => (p2, true)
      | some pv =>
        (p2, decide (pv.url ≠ nxt.url ∨ pv.upload_at ≠ nxt.upload_at ∨
                     pv.version ≠ nxt.version ∨ pv.runner_by ≠ nxt.runner_by))

/-- `WorkerPool.removeWorker`: delete the key if present, optionally resort,
report whether a deletion happened. Logging is elided. -/
def removeWorker (k : String) (resort : Bool) (p : Pool) : Pool × Bool :=
  if (findWorker p.workers k).isSome then
    let p1 := { p with workers := eraseWorker k p.workers }
    (if resort then _resort p1 else p1, true)
  else (p, false)

/-- The `remove missing` loop of `syncFromObject`: iterate over a snapshot of
the map's keys, removing (without resort) each key absent from the incoming
object, collecting the removed keys in order. -/
def removeMissing (nextKeys : List String) : List String → Pool → Pool × List String
  | [], p => (p, [])
  | k :: ks, p =>
    if k ∈ nextKeys then removeMissing nextKeys ks p
    else
      let r := removeWorker k false p
      let rest := removeMissing nextKeys ks r.1
      (rest.1, if r.2 then k :: rest.2 else rest.2)

/-- The `upsert all` loop of `syncFromObject`: for each incoming entry, skip it
when `_toComparable` yields nothing or an empty url; otherwise upsert (without
resort) the raw data with normalized `upload_at`/`version`/`runner_by`,
collecting `added` keys (not in the `before` map) and `updated` keys
(previously present and changed). -/
def upsertAll (parse : String → Option Int) (now : Int)
    (before : List (String × Comparable)) :
    List (String × Option RawWorker) → Pool → Pool × List String × List String
  | [], p => (p, [], [])
  | (key, raw) :: rest, p =>
    match toComparable parse now raw with
    | none => upsertAll parse now before rest p
    | some nc =>
      if nc.url = "" then upsertAll parse now before rest p
      else
        let existed := (before.find? (fun e => e.1 == key)).isSome
        let u := updateWorker parse now key
          (some { url := nc.url, upload_at := .num nc.upload_at,
                  version := nc.version, runner_by := nc.runner_by }) false p
        let rest1 := upsertAll parse now before rest u.1
        if existed = false then (rest1.1, key :: rest1.2.1, rest1.2.2)
        else if u.2 then (rest1.1, rest1.2.1, key :: rest1.2.2)
        else rest1

/-- The diff summary `syncFromObject` computes for its change logging. -/
structure Diff where
  added : List String
  removed : List String
  updated : List String
deriving DecidableEq, Repr

/-- `WorkerPool.syncFromObject` (part_001): snapshot the comparable map, remove
keys missing from the incoming object, upsert every incoming entry with a valid
url, then `_resort` once.  Returns the final state and the diff used for
logging. -/
def syncFromObject (parse : String → Option Int) (now : Int)
    (obj : List (String × Option RawWorker)) (p : Pool) : Pool × Diff :=
  let before := p.workers.map (fun w => (w.key, comparableOfWorker w))
  let nextKeys := obj.map Prod.fst
  let r1 := removeMissing nextKeys (p.workers.map Worker.key) p
  let r2 := upsertAll parse now before obj r1.1
  (_resort r2.1, { added := r2.2.1, removed := r1.2, updated := r2.2.2 })

/-- `WorkerPool.getNextWorker`: `null` on an empty order; otherwise return the
record at the cursor (`undefined` lookups fall back to `null` via
`worker || null`) and advance the cursor modulo the length. -/
def getNextWorker (p : Pool) : Option Worker × Pool :=
  if p.sortedKeys.length = 0 then (none, p)
  else
    let key? := p.sortedKeys[p.currentIndex]?
    let worker := key?.bind (findWorker p.workers)
    (worker, { p with currentIndex := (p.currentIndex + 1) % p.sortedKeys.length })

/-- `WorkerPool.getAllWorkers`: all records sorted ascending by `upload_at`. -/
def getAllWorkers (p : Pool) : List Worker := sortByUploadAt p.workers

/-- `WorkerPool.size`. -/
def size (p : Pool) : Nat := p.workers.length

/-- Iterate `getNextWorker` `n` times, collecting the returned values in
order together with the final state. -/
def nextN : Nat → Pool → List (Option Worker) × Pool
  | 0, p => ([], p)
  | n + 1, p =>
    let r := getNextWorker p
    let rest := nextN n r.2
    (r.1 :: rest.1, rest.2)

/-- The states the pool can reach: the constructor state, followed by any
interleaving of Firebase reconciles and round-robin dispatches. -/
inductive Reachable : Pool → Prop where
  | init : Reachable Pool.init
  | sync (parse : String → Option Int) (now : Int)
      (obj : List (String × Option RawWorker)) {p : Pool} :
      Reachable p → Reachable (syncFromObject parse now obj p).1
  | next {p : Pool} : Reachable p → Reachable (getNextWorker p).2

/-- The JSON body of a health response; `workers` holds
`(key, url, version, upload_at-as-ISO-8601)` tuples. -/
structure HealthBody where
  status : String
  workers : List (String × String × String × String)
  total_workers : Nat
deriving DecidableEq, Repr

/-- Outcome of the HTTP request handler: a 200 health response, a 503
`Service Unavailable` JSON response, or a proxied request to a worker. -/
inductive GatewayResult where
  | healthOk (body : HealthBody)
  | serviceUnavailable (error message request_id : String)
  | proxied (targetUrl workerKey workerVersion : String)
deriving DecidableEq, Repr

/-- The four URLs the health check matches by exact string equality. -/
def healthPaths : List String := ["/health", "/health/", "/nginx-health", "/nginx-health/"]

/-- The `http.createServer` request handler: health URLs short-circuit with a
200 JSON body built from `getAllWorkers`; every other URL dispatches through
`getNextWorker`, answering 503 when it yields `null` and proxying otherwise.
`iso` models `new Date(t).toISOString()`; `reqId` is the final
`x-request-id` (kept from the request or freshly generated). -/
def handleRequest (iso : Int → String) (reqId url : String) (p : Pool) :
    GatewayResult × Pool :=
  if url ∈ healthPaths then
    (.healthOk
      { status := "ok"
        workers := (getAllWorkers p).map (fun w => (w.key, w.url, w.version, iso w.upload_at))
        total_workers := size p }, p)
  else
    match getNextWorker p with
    | (none, p1) =>
      (.serviceUnavailable "Service Unavailable" "Không có worker nào đang hoạt động" reqId, p1)
    | (some w, p1) => (.proxied w.url w.key w.version, p1)

/-- Outcome of the `upgrade` handler: the raw socket is destroyed, or the
WebSocket is proxied to a worker. -/
inductive UpgradeResult where
  | socketDestroyed
  | proxiedWs (targetUrl workerKey workerVersion : String)
deriving DecidableEq, Repr

/-- The `server.on("upgrade")` handler: dispatch through `getNextWorker`;
destroy the socket when it yields `null` (no HTTP status is written),
otherwise proxy the WebSocket. -/
def handleUpgrade (reqId : String) (p : Pool) : UpgradeResult × Pool :=
  match getNextWorker p with
  | (none, p1) => (.socketDestroyed, p1)
  | (some w, p1) => (.proxiedWs w.url w.key w.version, p1)


/-- The worker record `updateWorker` stores for raw data `d` under key `k`. -/
def workerOfRaw (parse : String → Option Int) (now : Int) (k : String) (d : RawWorker) : Worker :=
  { key := k
    url := d.url
    upload_at := normalizeUploadAt parse now d.upload_at
    version := if d.version = "" then "unknown" else d.version
    runner_by := if d.runner_by = "" then "unknown" else d.runner_by }

/-- Whether a raw snapshot entry passes the url guard of the upsert loop. -/
def hasValidUrl : Option RawWorker → Bool
  | none => false
  | some d => decide (d.url ≠ "")


/-- The data-model invariant maintained by every reachable pool state:
the ordered sequence is exactly the sorted key list of the map, keys are
unique, every stored record has a non-empty url, and the cursor is in
range (or 0 when the sequence is empty). -/
structure PoolInv (p : Pool) : Prop where
  skey : p.sortedKeys = (sortByUploadAt p.workers).map Worker.key
  nodupKeys : (p.workers.map Worker.key).Nodup
  urls : ∀ w ∈ p.workers, w.url ≠ ""
  cursor : p.currentIndex < p.sortedKeys.length ∨
    (p.sortedKeys = [] ∧ p.currentIndex = 0)


/-- A `Date.parse` model that parses nothing (every string is `NaN`). -/
def noParse : String → Option Int := fun _ => none

/-- Raw entry body with a url and a numeric `upload_at`. -/
def rawNum (u : String) (t : Int) : RawWorker :=
  { url := u, upload_at := .num t, version := "", runner_by := "" }

/-- The scenario-2 snapshot of the spec:
`{w1:{url:"http://h1",upload_at:100}, w2:{url:"http://h2",upload_at:50}}`. -/
def snap2 : List (String × Option RawWorker) :=
  [("w1", some (rawNum "http://h1" 100)), ("w2", some (rawNum "http://h2" 50))]

/-- The pool after reconciling `snap2` from the initial state. -/
def pool2 : Pool := (syncFromObject noParse 0 snap2 Pool.init).1

/-- Snapshot with keys A,B at timestamps 1,2. -/
def snapAB : List (String × Option RawWorker) :=
  [("A", some (rawNum "u" 1)), ("B", some (rawNum "v" 2))]

/-- Snapshot with keys A,C,D (B removed, C and D added). -/
def snapACD : List (String × Option RawWorker) :=
  [("A", some (rawNum "u" 1)), ("C", some (rawNum "w" 3)), ("D", some (rawNum "x" 4))]

/-- Pool with order [A,B] and cursor 1 (pointing at B): sync then one next(). -/
def poolAB : Pool := (getNextWorker (syncFromObject noParse 0 snapAB Pool.init).1).2

/-- `poolAB` reconciled against `snapACD`. -/
def poolACD : Pool := (syncFromObject noParse 0 snapACD poolAB).1

/-- Snapshot with keys A,B,C at timestamps 1,2,3. -/
def snapABC : List (String × Option RawWorker) :=
  [("A", some (rawNum "u" 1)), ("B", some (rawNum "v" 2)), ("C", some (rawNum "w" 3))]

/-- Snapshot adding an unrelated key X at timestamp 0 in front of A,B,C. -/
def snapXABC : List (String × Option RawWorker) :=
  [("X", some (rawNum "y" 0)), ("A", some (rawNum "u" 1)), ("B", some (rawNum "v" 2)),
   ("C", some (rawNum "w" 3))]

/-- Pool with order [A,B,C] and cursor 1 (pointing at B). -/
def poolABC : Pool := (getNextWorker (syncFromObject noParse 0 snapABC Pool.init).1).2

/-- Snapshot with the single valid key A. -/
def snapA : List (String × Option RawWorker) := [("A", some (rawNum "u" 1))]

/-- Pool holding only A. -/
def poolA : Pool := (syncFromObject noParse 0 snapA Pool.init).1

/-- Snapshot where key A is still present but its url is empty. -/
def snapAempty : List (String × Option RawWorker) := [("A", some (rawNum "" 2))]

/-- `pool2` after one `next()`: cursor 1, pointing at w1. -/
def poolW : Pool := (getNextWorker pool2).2

/-- A raw `upload_at` value whose normalization does not depend on the
receipt time (finite numbers; strings whose parse result is fixed). -/
def timeIndep (parse : String → Option Int) (v : RawVal) : Prop :=
  ∀ n₁ n₂ : Int, normalizeUploadAt parse n₁ v = normalizeUploadAt parse n₂ v

/-- Snapshot whose single entry carries the pending-server-time placeholder. -/
def snapSv : List (String × Option RawWorker) :=
  [("w", some { url := "u", upload_at := .objSv, version := "", runner_by := "" })]

/-- `snapSv` reconciled at receipt time 100. -/
def poolSv : Pool := (syncFromObject noParse 100 snapSv Pool.init).1

/-! ### Association-list lemmas for the `workers` map -/

theorem findWorker_nil (k : String) : findWorker [] k = none := rfl

theorem findWorker_cons (x : Worker) (xs : List Worker) (k : String) :
    findWorker (x :: xs) k = if x.key = k then some x else findWorker xs k := by
  by_cases h : x.key = k
  · simp [findWorker, List.find?_cons_of_pos, h]
  · simp [findWorker, List.find?_cons_of_neg, h]

theorem findWorker_some {ws : List Worker} {k : String} {w : Worker}
    (h : findWorker ws k = some w) : w.key = k ∧ w ∈ ws := by
  have hk := List.find?_some h
  have hm := List.mem_of_find?_eq_some h
  exact ⟨by simpa using hk, hm⟩

theorem findWorker_isSome_iff {ws : List Worker} {k : String} :
    (findWorker ws k).isSome = true ↔ ∃ w ∈ ws, w.key = k := by
  simp [findWorker, List.find?_isSome]

theorem findWorker_eq_none_iff {ws : List Worker} {k : String} :
    findWorker ws k = none ↔ ∀ w ∈ ws, w.key ≠ k := by
  simp [findWorker, List.find?_eq_none]

theorem findWorker_setWorker_self (w : Worker) (ws : List Worker) :
    findWorker (setWorker w ws) w.key = some w := by
  induction ws with
  | nil => simp [setWorker, findWorker_cons]
  | cons x xs ih =>
    by_cases h : x.key = w.key
    · simp [setWorker, h, findWorker_cons]
    · simp [setWorker, h, findWorker_cons, ih]

theorem findWorker_setWorker_ne {k : String} (w : Worker) (ws : List Worker)
    (h : k ≠ w.key) : findWorker (setWorker w ws) k = findWorker ws k := by
  have hwk : ¬ w.key = k := fun hh => h hh.symm
  induction ws with
  | nil => simp [setWorker, findWorker_cons, hwk]
  | cons x xs ih =>
    by_cases hx : x.key = w.key
    · have hxk : ¬ x.key = k := hx ▸ hwk
      simp [setWorker, hx, findWorker_cons, hwk, hxk]
    · by_cases hxk : x.key = k
      · simp [setWorker, hx, findWorker_cons, hxk, h]
      · simp [setWorker, hx, findWorker_cons, hxk, ih]

theorem setWorker_eq_of_find {w : Worker} {ws : List Worker}
    (h : findWorker ws w.key = some w) : setWorker w ws = ws := by
  induction ws with
  | nil => simp [findWorker_nil] at h
  | cons x xs ih =>
    rw [findWorker_cons] at h
    by_cases hx : x.key = w.key
    · rw [if_pos hx] at h
      have hxw : x = w := Option.some.inj h
      subst hxw
      simp [setWorker]
    · rw [if_neg hx] at h
      simp [setWorker, hx, ih h]

theorem mem_setWorker {x w : Worker} {ws : List Worker}
    (h : x ∈ setWorker w ws) : x = w ∨ x ∈ ws := by
  induction ws with
  | nil => simpa [setWorker] using h
  | cons y ys ih =>
    by_cases hy : y.key = w.key
    · rw [setWorker, if_pos hy] at h
      rcases List.mem_cons.1 h with h' | h'
      · exact Or.inl h'
      · exact Or.inr (List.mem_cons_of_mem _ h')
    · rw [setWorker, if_neg hy] at h
      rcases List.mem_cons.1 h with h' | h'
      · exact Or.inr (by simp [h'])
      · rcases ih h' with h'' | h''
        · exact Or.inl h''
        · exact Or.inr (List.mem_cons_of_mem _ h'')

theorem keys_setWorker_mem {k : String} {w : Worker} {ws : List Worker}
    (h : k ∈ (setWorker w ws).map Worker.key) :
    k = w.key ∨ k ∈ ws.map Worker.key := by
  rcases List.mem_map.1 h with ⟨x, hx, rfl⟩
  rcases mem_setWorker hx with rfl | hx'
  · exact Or.inl rfl
  · exact Or.inr (List.mem_map_of_mem _ hx')

theorem nodup_keys_setWorker {w : Worker} {ws : List Worker}
    (h : (ws.map Worker.key).Nodup) :
    ((setWorker w ws).map Worker.key).Nodup := by
  induction ws with
  | nil => simp [setWorker]
  | cons x xs ih =>
    rw [List.map_cons, List.nodup_cons] at h
    obtain ⟨hx, hxs⟩ := h
    by_cases hk : x.key = w.key
    · rw [setWorker, if_pos hk, List.map_cons, List.nodup_cons]
      exact ⟨by rw [← hk]; exact hx, hxs⟩
    · rw [setWorker, if_neg hk, List.map_cons, List.nodup_cons]
      refine ⟨fun hmem => ?_, ih hxs⟩
      rcases keys_setWorker_mem hmem with h' | h'
      · exact hk h'
      · exact hx h'

theorem eraseWorker_sublist (k : String) (ws : List Worker) :
    (eraseWorker k ws).Sublist ws := by
  induction ws with
  | nil => simp [eraseWorker]
  | cons x xs ih =>
    by_cases hx : x.key = k
    · rw [eraseWorker, if_pos hx]
      exact List.sublist_cons_self x xs
    · rw [eraseWorker, if_neg hx]
      exact ih.cons₂ x

theorem findWorker_eraseWorker_ne {k' k : String} (ws : List Worker)
    (h : k' ≠ k) : findWorker (eraseWorker k ws) k' = findWorker ws k' := by
  induction ws with
  | nil => simp [eraseWorker]
  | cons x xs ih =>
    have hkk : ¬ k = k' := fun hh => h hh.symm
    by_cases hx : x.key = k
    · have hxk : ¬ x.key = k' := hx ▸ hkk
      simp [eraseWorker, hx, findWorker_cons, hxk, hkk]
    · by_cases hxk : x.key = k'
      · simp [eraseWorker, hx, findWorker_cons, hxk, h]
      · simp [eraseWorker, hx, findWorker_cons, hxk, ih]

theorem findWorker_none_of_sublist {ws ws' : List Worker} {k : String}
    (hsub : ws'.Sublist ws) (h : findWorker ws k = none) :
    findWorker ws' k = none := by
  rw [findWorker_eq_none_iff] at h ⊢
  exact fun w hw => h w (hsub.mem hw)

/-! ### Characterization of `_resort` -/

theorem resort_workers (p : Pool) : (_resort p).workers = p.workers := by
  rw [_resort]
  split
  · rfl
  · split
    · split <;> rfl
    · rfl

theorem resort_sortedKeys (p : Pool) :
    (_resort p).sortedKeys = (sortByUploadAt p.workers).map Worker.key := by
  rw [_resort]
  split
  · rfl
  · split
    · split <;> rfl
    · rfl

theorem resort_cursor_key_mem {p : Pool} {ck : String}
    (hck : p.sortedKeys[p.currentIndex]? = some ck) (hne : ck ≠ "")
    (hmem : ck ∈ (sortByUploadAt p.workers).map Worker.key) :
    (_resort p).currentIndex = ((sortByUploadAt p.workers).map Worker.key).indexOf ck := by
  have hlen : ¬ ((sortByUploadAt p.workers).map Worker.key).length = 0 := by
    intro h0
    rw [List.length_eq_zero] at h0
    simp [h0] at hmem
  have hnil : ¬ sortByUploadAt p.workers = [] := by
    intro hh
    simp [hh] at hlen
  simp [_resort, hck, hlen, hne, hmem, hnil]

theorem resort_cursor_key_not_mem {p : Pool} {ck : String}
    (hck : p.sortedKeys[p.currentIndex]? = some ck) (hne : ck ≠ "")
    (hmem : ck ∉ (sortByUploadAt p.workers).map Worker.key) :
    (_resort p).currentIndex = 0 := by
  by_cases hlen : ((sortByUploadAt p.workers).map Worker.key).length = 0
  · simp [_resort, hlen]
  · have hnil : ¬ sortByUploadAt p.workers = [] := by
      intro hh
      simp [hh] at hlen
    simp [_resort, hck, hlen, hne, hmem, hnil]

theorem resort_cursor_falsy {p : Pool}
    (hck : p.sortedKeys[p.currentIndex]? = none ∨
           p.sortedKeys[p.currentIndex]? = some "") :
    (_resort p).currentIndex =
      if ((sortByUploadAt p.workers).map Worker.key).length ≤ p.currentIndex
      then 0 else p.currentIndex := by
  by_cases hlen : ((sortByUploadAt p.workers).map Worker.key).length = 0
  · have : ((sortByUploadAt p.workers).map Worker.key).length ≤ p.currentIndex := by omega
    simp [_resort, hlen, this]
  · have hnil : ¬ sortByUploadAt p.workers = [] := by
      intro hh
      simp [hh] at hlen
    rcases hck with hck | hck
    · simp [_resort, hck, hlen, hnil]
    · simp [_resort, hck, hlen, hnil]

theorem resort_cursor_lt {p : Pool}
    (h : (_resort p).sortedKeys ≠ []) :
    (_resort p).currentIndex < (_resort p).sortedKeys.length := by
  have hsk := resort_sortedKeys p
  rw [hsk] at h ⊢
  have hpos : 0 < ((sortByUploadAt p.workers).map Worker.key).length := by
    cases hh : (sortByUploadAt p.workers).map Worker.key with
    | nil => exact absurd hh h
    | cons a l => simp [hh]
  rcases hck : p.sortedKeys[p.currentIndex]? with _ | ck
  · rw [resort_cursor_falsy (Or.inl hck)]
    split
    · exact hpos
    · omega
  · by_cases hne : ck = ""
    · rw [resort_cursor_falsy (Or.inr (hne ▸ hck))]
      split
      · exact hpos
      · omega
    · by_cases hmem : ck ∈ (sortByUploadAt p.workers).map Worker.key
      · rw [resort_cursor_key_mem hck hne hmem]
        exact List.indexOf_lt_length.2 hmem
      · rw [resort_cursor_key_not_mem hck hne hmem]
        exact hpos

theorem resort_cursor_empty {p : Pool}
    (h : (_resort p).sortedKeys = []) : (_resort p).currentIndex = 0 := by
  rw [resort_sortedKeys] at h
  have hlen : ((sortByUploadAt p.workers).map Worker.key).length = 0 := by
    simp [h]
  simp [_resort, hlen]

/-! ### The two phases of `syncFromObject` -/

theorem updateWorker_false (parse : String → Option Int) (now : Int) (key : String)
    (d : RawWorker) (p : Pool) (hurl : ¬ d.url = "") :
    updateWorker parse now key (some d) false p =
      ({ p with workers := setWorker (workerOfRaw parse now key d) p.workers },
       match findWorker p.workers key with
       | none => true
       | some pv =>
         decide (pv.url ≠ (workerOfRaw parse now key d).url ∨
                 pv.upload_at ≠ (workerOfRaw parse now key d).upload_at ∨
                 pv.version ≠ (workerOfRaw parse now key d).version ∨
                 pv.runner_by ≠ (workerOfRaw parse now key d).runner_by)) := by
  simp only [updateWorker, if_neg hurl, workerOfRaw]
  cases findWorker p.workers key <;> rfl

theorem workerOfRaw_massaged (parse : String → Option Int) (now : Int) (k : String)
    (d : RawWorker) :
    workerOfRaw parse now k
      { url := d.url
        upload_at := .num (normalizeUploadAt parse now d.upload_at)
        version := if d.version = "" then "unknown" else d.version
        runner_by := if d.runner_by = "" then "unknown" else d.runner_by } =
      workerOfRaw parse now k d := by
  by_cases hv : d.version = "" <;> by_cases hr : d.runner_by = "" <;>
    simp [workerOfRaw, normalizeUploadAt, hv, hr]

theorem removeWorker_false_spec (k : String) (p : Pool) :
    (removeWorker k false p).1 =
      if (findWorker p.workers k).isSome
      then { p with workers := eraseWorker k p.workers }
      else p := by
  rw [removeWorker]
  split <;> simp_all

theorem removeMissing_sortedKeys (nk ks : List String) (p : Pool) :
    (removeMissing nk ks p).1.sortedKeys = p.sortedKeys := by
  induction ks generalizing p with
  | nil => rfl
  | cons k ks ih =>
    rw [removeMissing]
    split
    · exact ih p
    · rw [ih]
      rw [removeWorker_false_spec]
      split <;> rfl

theorem removeMissing_currentIndex (nk ks : List String) (p : Pool) :
    (removeMissing nk ks p).1.currentIndex = p.currentIndex := by
  induction ks generalizing p with
  | nil => rfl
  | cons k ks ih =>
    rw [removeMissing]
    split
    · exact ih p
    · rw [ih]
      rw [removeWorker_false_spec]
      split <;> rfl

theorem removeMissing_workers_sublist (nk ks : List String) (p : Pool) :
    (removeMissing nk ks p).1.workers.Sublist p.workers := by
  induction ks generalizing p with
  | nil => exact List.Sublist.refl _
  | cons k ks ih =>
    rw [removeMissing]
    split
    · exact ih p
    · refine ((ih _).trans ?_)
      rw [removeWorker_false_spec]
      split
      · exact eraseWorker_sublist k p.workers
      · exact List.Sublist.refl _

theorem removeMissing_find_mem {nk : List String} {k : String} (ks : List String) (p : Pool)
    (hk : k ∈ nk) :
    findWorker (removeMissing nk ks p).1.workers k = findWorker p.workers k := by
  induction ks generalizing p with
  | nil => rfl
  | cons k' ks ih =>
    rw [removeMissing]
    split
    · exact ih p
    · rw [ih]
      rw [removeWorker_false_spec]
      split
      · have hne : k ≠ k' := by
          intro h
          subst h
          exact (by assumption : ¬ k ∈ nk) hk
        exact findWorker_eraseWorker_ne p.workers hne
      · rfl

theorem removeMissing_all_mem {nk : List String} (ks : List String) (p : Pool)
    (h : ∀ k ∈ ks, k ∈ nk) : removeMissing nk ks p = (p, []) := by
  induction ks with
  | nil => rfl
  | cons k ks ih =>
    rw [removeMissing, if_pos (h k (by simp))]
    exact ih fun k' hk' => h k' (by simp [hk'])

theorem upsertAll_cons_invalid {raw : Option RawWorker}
    (parse : String → Option Int) (now : Int)
    (before : List (String × Comparable)) (k : String)
    (rest : List (String × Option RawWorker)) (p : Pool)
    (h : hasValidUrl raw = false) :
    upsertAll parse now before ((k, raw) :: rest) p =
      upsertAll parse now before rest p := by
  cases raw with
  | none => rfl
  | some d =>
    have hd : d.url = "" := by simpa [hasValidUrl] using h
    simp [upsertAll, toComparable, hd]

theorem upsertAll_cons_valid_fst {d : RawWorker}
    (parse : String → Option Int) (now : Int)
    (before : List (String × Comparable)) (k : String)
    (rest : List (String × Option RawWorker)) (p : Pool)
    (hurl : ¬ d.url = "") :
    (upsertAll parse now before ((k, some d) :: rest) p).1 =
      (upsertAll parse now before rest
        { p with workers := setWorker (workerOfRaw parse now k d) p.workers }).1 := by
  rw [upsertAll]
  simp only [toComparable]
  rw [if_neg hurl,
    updateWorker_false parse now k
      { url := d.url
        upload_at := .num (normalizeUploadAt parse now d.upload_at)
        version := if d.version = "" then "unknown" else d.version
        runner_by := if d.runner_by = "" then "unknown" else d.runner_by } p hurl,
    workerOfRaw_massaged]
  split
  · rfl
  · split
    · rfl
    · rfl

theorem upsertAll_fst_sortedKeys (parse : String → Option Int) (now : Int)
    (before : List (String × Comparable))
    (entries : List (String × Option RawWorker)) (p : Pool) :
    (upsertAll parse now before entries p).1.sortedKeys = p.sortedKeys := by
  induction entries generalizing p with
  | nil => rfl
  | cons e rest ih =>
    obtain ⟨k, raw⟩ := e
    cases hv : hasValidUrl raw with
    | false => rw [upsertAll_cons_invalid parse now before k rest p hv, ih]
    | true =>
      cases raw with
      | none => simp [hasValidUrl] at hv
      | some d =>
        have hurl : ¬ d.url = "" := by simpa [hasValidUrl] using hv
        rw [upsertAll_cons_valid_fst parse now before k rest p hurl, ih]

theorem upsertAll_fst_currentIndex (parse : String → Option Int) (now : Int)
    (before : List (String × Comparable))
    (entries : List (String × Option RawWorker)) (p : Pool) :
    (upsertAll parse now before entries p).1.currentIndex = p.currentIndex := by
  induction entries generalizing p with
  | nil => rfl
  | cons e rest ih =>
    obtain ⟨k, raw⟩ := e
    cases hv : hasValidUrl raw with
    | false => rw [upsertAll_cons_invalid parse now before k rest p hv, ih]
    | true =>
      cases raw with
      | none => simp [hasValidUrl] at hv
      | some d =>
        have hurl : ¬ d.url = "" := by simpa [hasValidUrl] using hv
        rw [upsertAll_cons_valid_fst parse now before k rest p hurl, ih]

theorem upsertAll_pred (P : Worker → Prop) (parse : String → Option Int) (now : Int)
    (before : List (String × Comparable))
    (entries : List (String × Option RawWorker)) (p : Pool)
    (hE : ∀ e ∈ entries, ∀ d : RawWorker, e.2 = some d → ¬ d.url = "" →
      P (workerOfRaw parse now e.1 d))
    (hp : ∀ w ∈ p.workers, P w) :
    ∀ w ∈ (upsertAll parse now before entries p).1.workers, P w := by
  induction entries generalizing p with
  | nil => exact hp
  | cons e rest ih =>
    obtain ⟨k, raw⟩ := e
    cases hv : hasValidUrl raw with
    | false =>
      rw [upsertAll_cons_invalid parse now before k rest p hv]
      exact ih _ (fun e he => hE e (by simp [he])) hp
    | true =>
      cases raw with
      | none => simp [hasValidUrl] at hv
      | some d =>
        have hurl : ¬ d.url = "" := by simpa [hasValidUrl] using hv
        rw [upsertAll_cons_valid_fst parse now before k rest p hurl]
        refine ih _ (fun e he => hE e (by simp [he])) ?_
        intro w hw
        rcases mem_setWorker hw with rfl | hw'
        · exact hE (k, some d) (by simp) d rfl hurl
        · exact hp w hw'

theorem upsertAll_nodup (parse : String → Option Int) (now : Int)
    (before : List (String × Comparable))
    (entries : List (String × Option RawWorker)) (p : Pool)
    (hp : (p.workers.map Worker.key).Nodup) :
    ((upsertAll parse now before entries p).1.workers.map Worker.key).Nodup := by
  induction entries generalizing p with
  | nil => exact hp
  | cons e rest ih =>
    obtain ⟨k, raw⟩ := e
    cases hv : hasValidUrl raw with
    | false =>
      rw [upsertAll_cons_invalid parse now before k rest p hv]
      exact ih _ hp
    | true =>
      cases raw with
      | none => simp [hasValidUrl] at hv
      | some d =>
        have hurl : ¬ d.url = "" := by simpa [hasValidUrl] using hv
        rw [upsertAll_cons_valid_fst parse now before k rest p hurl]
        exact ih _ (nodup_keys_setWorker hp)

theorem upsertAll_find_skip {k : String} (parse : String → Option Int) (now : Int)
    (before : List (String × Comparable))
    (entries : List (String × Option RawWorker)) (p : Pool)
    (hE : ∀ e ∈ entries, e.1 = k → hasValidUrl e.2 = false) :
    findWorker (upsertAll parse now before entries p).1.workers k =
      findWorker p.workers k := by
  induction entries generalizing p with
  | nil => rfl
  | cons e rest ih =>
    obtain ⟨k0, raw⟩ := e
    cases hv : hasValidUrl raw with
    | false =>
      rw [upsertAll_cons_invalid parse now before k0 rest p hv]
      exact ih _ (fun e he => hE e (by simp [he]))
    | true =>
      cases raw with
      | none => simp [hasValidUrl] at hv
      | some d =>
        have hurl : ¬ d.url = "" := by simpa [hasValidUrl] using hv
        have hk0 : k0 ≠ k := by
          intro hh
          have h2 := hE (k0, some d) (by simp) hh
          rw [hv] at h2
          exact absurd h2 (by decide)
        rw [upsertAll_cons_valid_fst parse now before k0 rest p hurl,
          ih _ (fun e he => hE e (by simp [he]))]
        exact findWorker_setWorker_ne _ _ (fun hh => hk0 (by simp [workerOfRaw] at hh; exact hh.symm))

theorem upsertAll_find_valid {k : String} {d : RawWorker}
    (parse : String → Option Int) (now : Int)
    (before : List (String × Comparable))
    (entries : List (String × Option RawWorker)) (p : Pool)
    (hnodup : (entries.map Prod.fst).Nodup)
    (hmem : (k, some d) ∈ entries) (hurl : ¬ d.url = "") :
    findWorker (upsertAll parse now before entries p).1.workers k =
      some (workerOfRaw parse now k d) := by
  induction entries generalizing p with
  | nil => simp at hmem
  | cons e rest ih =>
    obtain ⟨k0, raw⟩ := e
    rw [List.map_cons, List.nodup_cons] at hnodup
    obtain ⟨hk0rest, hrest⟩ := hnodup
    rcases List.mem_cons.1 hmem with heq | hmemrest
    · injection heq with h1 h2
      subst h1
      subst h2
      rw [upsertAll_cons_valid_fst parse now before k rest p hurl]
      have hnokey : ∀ e ∈ rest, e.1 = k → hasValidUrl e.2 = false := by
        intro e he hek
        exact absurd (List.mem_map.2 ⟨e, he, hek⟩) hk0rest
      rw [upsertAll_find_skip parse now before rest _ hnokey]
      exact findWorker_setWorker_self (workerOfRaw parse now k d) _
    · cases hv : hasValidUrl raw with
      | false =>
        rw [upsertAll_cons_invalid parse now before k0 rest p hv]
        exact ih _ hrest hmemrest
      | true =>
        cases raw with
        | none => simp [hasValidUrl] at hv
        | some d0 =>
          have hurl0 : ¬ d0.url = "" := by simpa [hasValidUrl] using hv
          rw [upsertAll_cons_valid_fst parse now before k0 rest p hurl0]
          exact ih _ hrest hmemrest

/-! ### The registry invariant over reachable states -/

theorem mem_eraseWorker_nodup {w : Worker} {k : String} {ws : List Worker}
    (hnodup : (ws.map Worker.key).Nodup) :
    w ∈ eraseWorker k ws ↔ w ∈ ws ∧ w.key ≠ k := by
  induction ws with
  | nil => simp [eraseWorker]
  | cons x xs ih =>
    rw [List.map_cons, List.nodup_cons] at hnodup
    obtain ⟨hx, hxs⟩ := hnodup
    by_cases hxk : x.key = k
    · rw [eraseWorker, if_pos hxk]
      constructor
      · intro hw
        refine ⟨List.mem_cons_of_mem _ hw, ?_⟩
        intro hwk
        apply hx
        rw [hxk, ← hwk]
        exact List.mem_map_of_mem Worker.key hw
      · rintro ⟨hw, hwk⟩
        rcases List.mem_cons.1 hw with rfl | hw'
        · exact absurd hxk hwk
        · exact hw'
    · rw [eraseWorker, if_neg hxk]
      constructor
      · intro hw
        rcases List.mem_cons.1 hw with rfl | hw'
        · exact ⟨List.mem_cons_self _ _, hxk⟩
        · have h2 := (ih hxs).1 hw'
          exact ⟨List.mem_cons_of_mem _ h2.1, h2.2⟩
      · rintro ⟨hw, hwk⟩
        rcases List.mem_cons.1 hw with rfl | hw'
        · exact List.mem_cons_self _ _
        · exact List.mem_cons_of_mem _ ((ih hxs).2 ⟨hw', hwk⟩)

theorem removeMissing_mem {nk : List String} (ks : List String) (p : Pool)
    (hnodup : (p.workers.map Worker.key).Nodup) (w : Worker) :
    w ∈ (removeMissing nk ks p).1.workers ↔
      w ∈ p.workers ∧ (w.key ∈ nk ∨ w.key ∉ ks) := by
  induction ks generalizing p with
  | nil => simp [removeMissing]
  | cons k ks ih =>
    rw [removeMissing]
    by_cases hkin : k ∈ nk
    · rw [if_pos hkin, ih p hnodup]
      constructor
      · rintro ⟨hw, hor⟩
        refine ⟨hw, ?_⟩
        rcases hor with h | h
        · exact Or.inl h
        · by_cases hk : w.key = k
          · exact Or.inl (hk ▸ hkin)
          · exact Or.inr (by simp [List.mem_cons, hk, h])
      · rintro ⟨hw, hor⟩
        refine ⟨hw, ?_⟩
        rcases hor with h | h
        · exact Or.inl h
        · exact Or.inr (fun hh => h (List.mem_cons_of_mem _ hh))
    · rw [if_neg hkin]
      have hgoal : w ∈ (let r := removeWorker k false p;
          let rest := removeMissing nk ks r.1;
          (rest.1, if r.2 = true then k :: rest.2 else rest.2)).1.workers ↔
          w ∈ (removeMissing nk ks (removeWorker k false p).1).1.workers := Iff.rfl
      rw [hgoal]
      have hspec := removeWorker_false_spec k p
      by_cases hfind : (findWorker p.workers k).isSome
      · rw [if_pos hfind] at hspec
        have hnodup' : (((removeWorker k false p).1.workers).map Worker.key).Nodup := by
          rw [hspec]
          exact hnodup.sublist ((eraseWorker_sublist k p.workers).map Worker.key)
        rw [ih _ hnodup', hspec]
        simp only []
        rw [mem_eraseWorker_nodup hnodup]
        constructor
        · rintro ⟨⟨hw, hwk⟩, hor⟩
          refine ⟨hw, ?_⟩
          rcases hor with h | h
          · exact Or.inl h
          · exact Or.inr (by simp [List.mem_cons, hwk, h])
        · rintro ⟨hw, hor⟩
          have hwk : w.key ≠ k := by
            intro hh
            rcases hor with h | h
            · exact hkin (hh ▸ h)
            · exact h (by simp [hh])
          refine ⟨⟨hw, hwk⟩, ?_⟩
          rcases hor with h | h
          · exact Or.inl h
          · exact Or.inr (fun hh => h (List.mem_cons_of_mem _ hh))
      · rw [if_neg hfind] at hspec
        rw [hspec, ih p hnodup]
        have hnone : findWorker p.workers k = none := by
          cases hf : findWorker p.workers k
          · rfl
          · rw [hf] at hfind
            simp at hfind
        have hall := findWorker_eq_none_iff.1 hnone
        constructor
        · rintro ⟨hw, hor⟩
          refine ⟨hw, ?_⟩
          rcases hor with h | h
          · exact Or.inl h
          · exact Or.inr (by simp [List.mem_cons, hall w hw, h])
        · rintro ⟨hw, hor⟩
          refine ⟨hw, ?_⟩
          rcases hor with h | h
          · exact Or.inl h
          · exact Or.inr (fun hh => h (List.mem_cons_of_mem _ hh))

theorem removeMissing_nodup (nk ks : List String) (p : Pool)
    (hnodup : (p.workers.map Worker.key).Nodup) :
    ((removeMissing nk ks p).1.workers.map Worker.key).Nodup :=
  hnodup.sublist ((removeMissing_workers_sublist nk ks p).map Worker.key)

theorem inv_init : PoolInv Pool.init :=
  ⟨rfl, by simp [Pool.init], by simp [Pool.init], Or.inr ⟨rfl, rfl⟩⟩

theorem inv_resort (p : Pool) (hnodup : (p.workers.map Worker.key).Nodup)
    (hurls : ∀ w ∈ p.workers, w.url ≠ "") : PoolInv (_resort p) := by
  refine ⟨?_, ?_, ?_, ?_⟩
  · rw [resort_sortedKeys, resort_workers]
  · rw [resort_workers]
    exact hnodup
  · rw [resort_workers]
    exact hurls
  · by_cases h : (_resort p).sortedKeys = []
    · exact Or.inr ⟨h, resort_cursor_empty h⟩
    · exact Or.inl (resort_cursor_lt h)

theorem syncFromObject_fst (parse : String → Option Int) (now : Int)
    (obj : List (String × Option RawWorker)) (p : Pool) :
    (syncFromObject parse now obj p).1 =
      _resort (upsertAll parse now (p.workers.map fun w => (w.key, comparableOfWorker w))
        obj (removeMissing (obj.map Prod.fst) (p.workers.map Worker.key) p).1).1 := rfl

theorem syncFromObject_snd (parse : String → Option Int) (now : Int)
    (obj : List (String × Option RawWorker)) (p : Pool) :
    (syncFromObject parse now obj p).2 =
      { added := (upsertAll parse now (p.workers.map fun w => (w.key, comparableOfWorker w))
          obj (removeMissing (obj.map Prod.fst) (p.workers.map Worker.key) p).1).2.1
        removed := (removeMissing (obj.map Prod.fst) (p.workers.map Worker.key) p).2
        updated := (upsertAll parse now (p.workers.map fun w => (w.key, comparableOfWorker w))
          obj (removeMissing (obj.map Prod.fst) (p.workers.map Worker.key) p).1).2.2 } := rfl

theorem inv_sync (parse : String → Option Int) (now : Int)
    (obj : List (String × Option RawWorker)) (p : Pool) (h : PoolInv p) :
    PoolInv (syncFromObject parse now obj p).1 := by
  rw [syncFromObject_fst]
  apply inv_resort
  · apply upsertAll_nodup
    exact removeMissing_nodup _ _ _ h.nodupKeys
  · apply upsertAll_pred
    · intro e he d hd hurl
      exact hurl
    · intro w hw
      exact h.urls w ((removeMissing_workers_sublist _ _ _).mem hw)

theorem getNextWorker_snd (p : Pool) :
    (getNextWorker p).2 =
      if p.sortedKeys.length = 0 then p
      else { p with currentIndex := (p.currentIndex + 1) % p.sortedKeys.length } := by
  rw [getNextWorker]
  split <;> rfl

theorem getNextWorker_fst (p : Pool) :
    (getNextWorker p).1 =
      if p.sortedKeys.length = 0 then none
      else (p.sortedKeys[p.currentIndex]?).bind (findWorker p.workers) := by
  rw [getNextWorker]
  split <;> rfl

theorem inv_next (p : Pool) (h : PoolInv p) : PoolInv (getNextWorker p).2 := by
  rw [getNextWorker_snd]
  split
  · exact h
  · refine ⟨h.skey, h.nodupKeys, h.urls, Or.inl ?_⟩
    exact Nat.mod_lt _ (Nat.pos_of_ne_zero (by assumption))

theorem reachable_inv {p : Pool} (h : Reachable p) : PoolInv p := by
  induction h with
  | init => exact inv_init
  | sync parse now obj hr ih => exact inv_sync parse now obj _ ih
  | next hr ih => exact inv_next _ ih

theorem inv_length_sortedKeys {p : Pool} (h : PoolInv p) :
    p.sortedKeys.length = p.workers.length := by
  rw [h.skey, List.length_map, sortByUploadAt, List.length_insertionSort]

theorem inv_sortedKeys_perm {p : Pool} (h : PoolInv p) :
    p.sortedKeys.Perm (p.workers.map Worker.key) := by
  rw [h.skey]
  exact (List.perm_insertionSort uploadLE p.workers).map Worker.key

theorem inv_sortedKeys_nodup {p : Pool} (h : PoolInv p) : p.sortedKeys.Nodup :=
  ((inv_sortedKeys_perm h).nodup_iff).2 h.nodupKeys

theorem inv_mem_sortedKeys {p : Pool} (h : PoolInv p) {k : String} :
    k ∈ p.sortedKeys ↔ ∃ w ∈ p.workers, w.key = k := by
  rw [(inv_sortedKeys_perm h).mem_iff]
  simp [List.mem_map]

/-! ### Claims -/

/-- C7: `normalizeUploadAt` maps every raw `upload_at` value to an epoch
number: a (finite) numeric input is kept as-is; a string input that parses as
a date is converted to its epoch; an unparseable string defaults to the time
of receipt; the unresolved `{".sv":"timestamp"}` placeholder defaults to the
time it was received; and any other input (non-finite numbers, other objects,
null/undefined/booleans) defaults to the time of receipt. -/
theorem claim_C7_normalize (parse : String → Option Int) (now : Int) :
    (∀ n : Int, normalizeUploadAt parse now (.num n) = n) ∧
    (∀ s t, parse s = some t → normalizeUploadAt parse now (.str s) = t) ∧
    (∀ s, parse s = none → normalizeUploadAt parse now (.str s) = now) ∧
    normalizeUploadAt parse now .objSv = now ∧
    (∀ v : RawVal, (∀ n : Int, v ≠ .num n) → (∀ s, v ≠ .str s) → v ≠ .objSv →
      normalizeUploadAt parse now v = now) := by
  refine ⟨fun n => rfl, fun s t h => by simp [normalizeUploadAt, h],
    fun s h => by simp [normalizeUploadAt, h], rfl, ?_⟩
  intro v hn hs ho
  cases v with
  | num n => exact absurd rfl (hn n)
  | str s => exact absurd rfl (hs s)
  | objSv => exact absurd rfl ho
  | numNonFinite => rfl
  | objOther => rfl
  | other => rfl

/-- Witness for C7 at a concrete parse function, receipt time 42, and all
value shapes. -/
theorem claim_C7_witness :
    normalizeUploadAt (fun s => if s = "2020" then some 1577836800000 else none) 42 (.num 7) = 7 ∧
    normalizeUploadAt (fun s => if s = "2020" then some 1577836800000 else none) 42
      (.str "2020") = 1577836800000 ∧
    normalizeUploadAt (fun s => if s = "2020" then some 1577836800000 else none) 42
      (.str "x") = 42 ∧
    normalizeUploadAt (fun s => if s = "2020" then some 1577836800000 else none) 42 .objSv = 42 ∧
    normalizeUploadAt (fun s => if s = "2020" then some 1577836800000 else none) 42 .other = 42 := by
  have h := claim_C7_normalize (fun s => if s = "2020" then some 1577836800000 else none) 42
  exact ⟨h.1 7, h.2.1 "2020" 1577836800000 (by simp), h.2.2.1 "x" (by simp),
    h.2.2.2.1, h.2.2.2.2 .other (fun n => by simp) (fun s => by simp) (by simp)⟩

/-- C5: in every state reachable through reconciles and `next()` calls,
the cursor satisfies `0 ≤ cursor < length` whenever the ordered sequence is
non-empty, and `cursor = 0` whenever it is empty. -/
theorem claim_C5_cursor_bounds {p : Pool} (h : Reachable p) :
    (0 < p.sortedKeys.length → p.currentIndex < p.sortedKeys.length) ∧
    (p.sortedKeys.length = 0 → p.currentIndex = 0) := by
  have hi := reachable_inv h
  rcases hi.cursor with hc | ⟨he, hz⟩
  · exact ⟨fun _ => hc, fun h0 => by omega⟩
  · exact ⟨fun hpos => by simp [he] at hpos, fun _ => hz⟩

/-- Witness for C5 at the scenario-2 pool (two workers) and the empty pool. -/
theorem claim_C5_witness :
    (0 < pool2.sortedKeys.length ∧ pool2.currentIndex < pool2.sortedKeys.length) ∧
    (Pool.init.sortedKeys.length = 0 ∧ Pool.init.currentIndex = 0) := by
  have h2 := claim_C5_cursor_bounds (Reachable.sync noParse 0 snap2 Reachable.init)
  have h0 := claim_C5_cursor_bounds Reachable.init
  exact ⟨⟨by decide, h2.1 (by decide)⟩, ⟨rfl, h0.2 rfl⟩⟩

/-- C9 (implicit): in every reachable state, every key of the sorted sequence
is a key of the `workers` map; hence `getNextWorker` returns an actual record
whenever the registry is non-empty (the `worker || null` fallback is
unreachable), and it returns `null` exactly when the registry is empty. -/
theorem claim_C9_sequence_keys_valid {p : Pool} (h : Reachable p) :
    (∀ k ∈ p.sortedKeys, ∃ w ∈ p.workers, w.key = k) ∧
    (0 < p.workers.length → ∃ w : Worker, (getNextWorker p).1 = some w) ∧
    ((getNextWorker p).1 = none ↔ p.workers = []) := by
  have hi := reachable_inv h
  have hmem : ∀ k ∈ p.sortedKeys, ∃ w ∈ p.workers, w.key = k :=
    fun k hk => (inv_mem_sortedKeys hi).1 hk
  have hlen : p.sortedKeys.length = p.workers.length := inv_length_sortedKeys hi
  have hsome : 0 < p.workers.length → ∃ w : Worker, (getNextWorker p).1 = some w := by
    intro hpos
    have hne : ¬ p.sortedKeys.length = 0 := by omega
    rw [getNextWorker_fst, if_neg hne]
    have hc : p.currentIndex < p.sortedKeys.length := by
      rcases hi.cursor with hc | ⟨he, _⟩
      · exact hc
      · rw [he] at hne
        simp at hne
    have hk : p.sortedKeys[p.currentIndex]? = some p.sortedKeys[p.currentIndex] :=
      List.getElem?_eq_getElem hc
    rw [hk]
    have hkmem : p.sortedKeys[p.currentIndex] ∈ p.sortedKeys := List.getElem?_mem hk
    obtain ⟨w, hw, hwk⟩ := hmem _ hkmem
    have hfind : (findWorker p.workers p.sortedKeys[p.currentIndex]).isSome :=
      findWorker_isSome_iff.2 ⟨w, hw, hwk⟩
    obtain ⟨w', hw'⟩ := Option.isSome_iff_exists.1 hfind
    exact ⟨w', by simp [hw']⟩
  refine ⟨hmem, hsome, ?_, ?_⟩
  · intro hn
    by_contra hne
    have hpos : 0 < p.workers.length := by
      cases hws : p.workers with
      | nil => exact absurd hws hne
      | cons a l => simp [hws]
    obtain ⟨w, hw⟩ := hsome hpos
    rw [hw] at hn
    cases hn
  · intro he
    have h0 : p.sortedKeys.length = 0 := by
      rw [hlen, he]
      rfl
    rw [getNextWorker_fst, if_pos h0]

/-- Witness for C9 at the scenario-2 pool. -/
theorem claim_C9_witness :
    ("w2" ∈ pool2.sortedKeys → ∃ w ∈ pool2.workers, w.key = "w2") ∧
    (∃ w : Worker, (getNextWorker pool2).1 = some w) := by
  have h := claim_C9_sequence_keys_valid (Reachable.sync noParse 0 snap2 Reachable.init)
  exact ⟨fun hm => h.1 "w2" hm, h.2.1 (by decide)⟩

/-- `getNextWorker` on a non-empty order: value at the cursor, advance mod length. -/
theorem getNextWorker_spec {p : Pool} (hne : ¬ p.sortedKeys.length = 0) :
    getNextWorker p = ((p.sortedKeys[p.currentIndex]?).bind (findWorker p.workers),
      { p with currentIndex := (p.currentIndex + 1) % p.sortedKeys.length }) := by
  rw [getNextWorker, if_neg hne]

/-- In an invariant state with a non-empty order, the record looked up at the
cursor exists. -/
theorem cursor_record_isSome {p : Pool} (hi : PoolInv p)
    (hne : ¬ p.sortedKeys.length = 0) :
    ∃ w : Worker, (p.sortedKeys[p.currentIndex]?).bind (findWorker p.workers) = some w := by
  have hc : p.currentIndex < p.sortedKeys.length := by
    rcases hi.cursor with hc | ⟨he, _⟩
    · exact hc
    · rw [he] at hne
      simp at hne
  have hk : p.sortedKeys[p.currentIndex]? = some p.sortedKeys[p.currentIndex] :=
    List.getElem?_eq_getElem hc
  rw [hk]
  have hkmem : p.sortedKeys[p.currentIndex] ∈ p.sortedKeys := List.getElem?_mem hk
  obtain ⟨w, hw, hwk⟩ := (inv_mem_sortedKeys hi).1 hkmem
  have hfind : (findWorker p.workers p.sortedKeys[p.currentIndex]).isSome :=
    findWorker_isSome_iff.2 ⟨w, hw, hwk⟩
  obtain ⟨w', hw'⟩ := Option.isSome_iff_exists.1 hfind
  exact ⟨w', by simp [hw']⟩

/-- C6: whenever the registry is empty, `getNextWorker` yields `null`; a plain
(non-health) HTTP request is answered 503 with the `Service Unavailable` JSON
body carrying the request id, with no forwarding and no state change; a
connection-upgrade request gets its socket destroyed without any HTTP status. -/
theorem claim_C6_empty_registry {p : Pool} (h : Reachable p) (hempty : p.workers = [])
    (iso : Int → String) (reqId url : String) (hurl : url ∉ healthPaths) :
    (getNextWorker p).1 = none ∧
    handleRequest iso reqId url p =
      (.serviceUnavailable "Service Unavailable" "Không có worker nào đang hoạt động" reqId, p) ∧
    handleUpgrade reqId p = (.socketDestroyed, p) := by
  have hi := reachable_inv h
  have h0 : p.sortedKeys.length = 0 := by
    rw [inv_length_sortedKeys hi, hempty]
    rfl
  have hg : getNextWorker p = (none, p) := by
    rw [getNextWorker, if_pos h0]
  refine ⟨by rw [hg], ?_, ?_⟩
  · rw [handleRequest, if_neg hurl, hg]
  · rw [handleUpgrade, hg]

/-- Witness for C6 at the initial (empty) pool with a non-health URL. -/
theorem claim_C6_witness :
    (getNextWorker Pool.init).1 = none ∧
    handleRequest (fun _ => "") "r1" "/x" Pool.init =
      (.serviceUnavailable "Service Unavailable" "Không có worker nào đang hoạt động" "r1",
        Pool.init) ∧
    handleUpgrade "r1" Pool.init = (.socketDestroyed, Pool.init) :=
  claim_C6_empty_registry Reachable.init rfl (fun _ => "") "r1" "/x" (by decide)

/-- C8: a request to a health path returns the 200 JSON body `{status:"ok",
workers, total_workers}` built from all current records ordered ascending by
`uploadAt`, leaves the pool state (mapping, sequence, cursor) unchanged, and
consumes no round-robin rotation; in reachable states every listed record has
a non-empty url. -/
theorem claim_C8_health (iso : Int → String) (reqId url : String) (p : Pool)
    (hurl : url ∈ healthPaths) :
    handleRequest iso reqId url p =
      (.healthOk
        { status := "ok"
          workers := (getAllWorkers p).map (fun w => (w.key, w.url, w.version, iso w.upload_at))
          total_workers := size p }, p) ∧
    List.Pairwise uploadLE (getAllWorkers p) ∧
    (getAllWorkers p).Perm p.workers ∧
    (Reachable p → ∀ w ∈ getAllWorkers p, w.url ≠ "") := by
  refine ⟨by rw [handleRequest, if_pos hurl], ?_, ?_, ?_⟩
  · exact List.sorted_insertionSort uploadLE p.workers
  · exact List.perm_insertionSort uploadLE p.workers
  · intro hr w hw
    exact (reachable_inv hr).urls w ((List.perm_insertionSort uploadLE p.workers).mem_iff.1 hw)

/-- Witness for C8 at the scenario-2 pool and the URL `/health`. -/
theorem claim_C8_witness :
    handleRequest (fun _ => "T") "r" "/health" pool2 =
      (.healthOk
        { status := "ok"
          workers := [("w2", "http://h2", "unknown", "T"), ("w1", "http://h1", "unknown", "T")]
          total_workers := 2 }, pool2) := by
  have h := claim_C8_health (fun _ => "T") "r" "/health" pool2 (by decide)
  rw [h.1]
  decide

/-- C10 (implicit): the health short-circuit matches the URL by exact string
equality against exactly the four paths of `healthPaths`; any other URL is
dispatched through `getNextWorker` — yielding the 503 response when the
registry is empty, and otherwise a proxied request plus one consumed
round-robin rotation (cursor advanced by one modulo the length). -/
theorem claim_C10_health_match (iso : Int → String) (reqId url : String) (p : Pool)
    (h : Reachable p) (hurl : url ∉ healthPaths) :
    (p.workers = [] →
      handleRequest iso reqId url p =
        (.serviceUnavailable "Service Unavailable" "Không có worker nào đang hoạt động" reqId, p)) ∧
    (p.workers ≠ [] →
      ∃ w : Worker, handleRequest iso reqId url p =
        (.proxied w.url w.key w.version,
          { p with currentIndex := (p.currentIndex + 1) % p.sortedKeys.length })) := by
  have hi := reachable_inv h
  constructor
  · intro hempty
    have h0 : p.sortedKeys.length = 0 := by
      rw [inv_length_sortedKeys hi, hempty]
      rfl
    rw [handleRequest, if_neg hurl, getNextWorker, if_pos h0]
  · intro hne
    have h0 : ¬ p.sortedKeys.length = 0 := by
      rw [inv_length_sortedKeys hi]
      intro hh
      exact hne (List.length_eq_zero.1 hh)
    obtain ⟨w, hw⟩ := cursor_record_isSome hi h0
    refine ⟨w, ?_⟩
    rw [handleRequest, if_neg hurl, getNextWorker_spec h0, hw]

/-- Witness for C10: `/health?x=1` is not a health path; at the scenario-2
pool it is dispatched and advances the cursor. -/
theorem claim_C10_witness :
    "/health?x=1" ∉ healthPaths ∧
    (∃ w : Worker, handleRequest (fun _ => "") "r" "/health?x=1" pool2 =
      (.proxied w.url w.key w.version,
        { pool2 with currentIndex := (pool2.currentIndex + 1) % pool2.sortedKeys.length })) := by
  have h := claim_C10_health_match (fun _ => "") "r" "/health?x=1" pool2
    (Reachable.sync noParse 0 snap2 Reachable.init) (by decide)
  exact ⟨by decide, h.2 (by decide)⟩

/-- C1 counterexample: `poolAB` has order [A,B] with the cursor at index 1
pointing at B; reconciling a snapshot that removes B and adds C,D produces the
order [A,C,D] of length 3 — so the old index 1 is still in range — yet the
code resets the cursor to 0 instead of keeping index 1 as the claim states. -/
theorem claim_C1_counterexample :
    poolAB.sortedKeys = ["A", "B"] ∧
    poolAB.currentIndex = 1 ∧
    poolAB.sortedKeys[poolAB.currentIndex]? = some "B" ∧
    "B" ∉ poolACD.sortedKeys ∧
    poolACD.sortedKeys.length = 3 ∧
    poolAB.currentIndex < poolACD.sortedKeys.length ∧
    poolACD.currentIndex = 0 ∧
    poolACD.currentIndex ≠ poolAB.currentIndex := by decide

/-- C1 (amended): after every reconcile, if the key the cursor pointed to
before still exists in the recomputed sequence, the cursor points at that
key's new position; if that key no longer exists the cursor is reset to 0
(even when the old index would still be in range of the new sequence); when
the previous sequence was empty the cursor stays 0; and when the new sequence
is empty the cursor is 0.  The [A,B,C]-with-cursor-at-B stability example of
the claim holds via the first part. -/
theorem claim_C1_cursor_adjustment {p : Pool} (h : Reachable p)
    (parse : String → Option Int) (now : Int) (obj : List (String × Option RawWorker)) :
    (∀ k, p.sortedKeys[p.currentIndex]? = some k → k ≠ "" →
      (k ∈ (syncFromObject parse now obj p).1.sortedKeys →
        ((syncFromObject parse now obj p).1.sortedKeys[(syncFromObject parse now obj p).1.currentIndex]? = some k)) ∧
      (k ∉ (syncFromObject parse now obj p).1.sortedKeys →
        (syncFromObject parse now obj p).1.currentIndex = 0)) ∧
    (p.sortedKeys = [] → (syncFromObject parse now obj p).1.currentIndex = 0) ∧
    ((syncFromObject parse now obj p).1.sortedKeys = [] →
      (syncFromObject parse now obj p).1.currentIndex = 0) := by
  have hi := reachable_inv h
  obtain ⟨r2, hr2eq, hr2sk, hr2ci⟩ :
      ∃ r2 : Pool, (syncFromObject parse now obj p).1 = _resort r2 ∧
        r2.sortedKeys = p.sortedKeys ∧ r2.currentIndex = p.currentIndex :=
    ⟨_, syncFromObject_fst parse now obj p,
      by rw [upsertAll_fst_sortedKeys, removeMissing_sortedKeys],
      by rw [upsertAll_fst_currentIndex, removeMissing_currentIndex]⟩
  refine ⟨?_, ?_, ?_⟩
  · intro k hk hkne
    have hck : r2.sortedKeys[r2.currentIndex]? = some k := by
      rw [hr2sk, hr2ci]
      exact hk
    constructor
    · intro hmem
      rw [hr2eq] at hmem ⊢
      rw [resort_sortedKeys] at hmem ⊢
      rw [resort_cursor_key_mem hck hkne hmem]
      have hlt := List.indexOf_lt_length.2 hmem
      rw [List.getElem?_eq_getElem hlt]
      exact congrArg some (List.getElem_indexOf hlt)
    · intro hmem
      rw [hr2eq] at hmem ⊢
      rw [resort_sortedKeys] at hmem
      exact resort_cursor_key_not_mem hck hkne hmem
  · intro hempty
    have hc0 : p.currentIndex = 0 := by
      rcases hi.cursor with hc | ⟨_, hz⟩
      · rw [hempty] at hc
        simp at hc
      · exact hz
    have hck : r2.sortedKeys[r2.currentIndex]? = none := by
      rw [hr2sk, hr2ci, hempty, hc0]
      rfl
    rw [hr2eq, resort_cursor_falsy (Or.inl hck)]
    split
    · rfl
    · rw [hr2ci, hc0]
  · intro hq
    rw [hr2eq] at hq ⊢
    exact resort_cursor_empty hq

/-- Witness for C1 at the stability example: order [A,B,C], cursor at B;
reconciling a snapshot that adds an unrelated earlier key X shifts B to
position 2 and the cursor follows it. -/
theorem claim_C1_witness :
    (syncFromObject noParse 0 snapXABC poolABC).1.sortedKeys = ["X", "A", "B", "C"] ∧
    (syncFromObject noParse 0 snapXABC poolABC).1.currentIndex = 2 ∧
    ((syncFromObject noParse 0 snapXABC poolABC).1.sortedKeys[(syncFromObject noParse 0 snapXABC poolABC).1.currentIndex]? = some "B") := by
  have h := claim_C1_cursor_adjustment
    (Reachable.next (Reachable.sync noParse 0 snapABC Reachable.init)) noParse 0 snapXABC
  exact ⟨by decide, by decide, (h.1 "B" (by decide) (by decide)).1 (by decide)⟩

/-- C2 counterexample: after registering A with url "u", reconciling a
snapshot in which key A is still present but carries an empty url does NOT
remove A — the old record is retained — contradicting the claim that such a
record "is removed by the reconcile". -/
theorem claim_C2_counterexample :
    findWorker poolA.workers "A" =
      some { key := "A", url := "u", upload_at := 1, version := "unknown", runner_by := "unknown" } ∧
    hasValidUrl (some (rawNum "" 2)) = false ∧
    "A" ∈ snapAempty.map Prod.fst ∧
    findWorker (syncFromObject noParse 0 snapAempty poolA).1.workers "A" =
      some { key := "A", url := "u", upload_at := 1, version := "unknown", runner_by := "unknown" } ∧
    (syncFromObject noParse 0 snapAempty poolA).1.sortedKeys = ["A"] := by decide

/-- C2 (amended): a key whose entries in the input all have a missing/empty
url is never added (if absent before, it is absent after); but when such a key
is still present in the input and a record with that key existed before, the
old record is retained unchanged rather than removed.  Still, every record of
a reachable state — in particular every record reachable from the ordered
sequence — has a non-empty url. -/
theorem claim_C2_invalid_url (p : Pool) (h : Reachable p)
    (parse : String → Option Int) (now : Int) (obj : List (String × Option RawWorker))
    (k : String) (hk : ∀ e ∈ obj, e.1 = k → hasValidUrl e.2 = false) :
    (findWorker p.workers k = none →
      findWorker (syncFromObject parse now obj p).1.workers k = none) ∧
    (k ∈ obj.map Prod.fst →
      findWorker (syncFromObject parse now obj p).1.workers k = findWorker p.workers k) ∧
    (∀ w ∈ (syncFromObject parse now obj p).1.workers, w.url ≠ "") ∧
    (∀ kk ∈ (syncFromObject parse now obj p).1.sortedKeys,
      ∃ w ∈ (syncFromObject parse now obj p).1.workers, w.key = kk ∧ w.url ≠ "") := by
  have hq : Reachable (syncFromObject parse now obj p).1 := Reachable.sync parse now obj h
  have hqi := reachable_inv hq
  refine ⟨?_, ?_, hqi.urls, ?_⟩
  · intro hnone
    rw [syncFromObject_fst, resort_workers, upsertAll_find_skip parse now _ obj _ hk]
    exact findWorker_none_of_sublist (removeMissing_workers_sublist _ _ _) hnone
  · intro hmem
    rw [syncFromObject_fst, resort_workers, upsertAll_find_skip parse now _ obj _ hk]
    exact removeMissing_find_mem _ _ hmem
  · intro kk hkk
    obtain ⟨w, hw, hwk⟩ := (inv_mem_sortedKeys hqi).1 hkk
    exact ⟨w, hw, hwk, hqi.urls w hw⟩

/-- Witness for C2: at `poolA` (holding A) the invalid-url snapshot leaves A's
record unchanged, and all records keep a non-empty url. -/
theorem claim_C2_witness :
    findWorker (syncFromObject noParse 0 snapAempty poolA).1.workers "A" =
      findWorker poolA.workers "A" ∧
    (∀ w ∈ (syncFromObject noParse 0 snapAempty poolA).1.workers, w.url ≠ "") := by
  have h := claim_C2_invalid_url poolA (Reachable.sync noParse 0 snapA Reachable.init)
    noParse 0 snapAempty "A" (by decide)
  exact ⟨h.2.1 (by decide), h.2.2.1⟩

/-! ### Round-robin traces -/

theorem getNextWorker_workers (p : Pool) : (getNextWorker p).2.workers = p.workers := by
  rw [getNextWorker_snd]
  split <;> rfl

theorem getNextWorker_sortedKeys (p : Pool) :
    (getNextWorker p).2.sortedKeys = p.sortedKeys := by
  rw [getNextWorker_snd]
  split <;> rfl

theorem nextN_succ (k : Nat) (p : Pool) :
    nextN (k + 1) p = ((getNextWorker p).1 :: (nextN k (getNextWorker p).2).1,
      (nextN k (getNextWorker p).2).2) := rfl

theorem nextN_add (m n : Nat) (p : Pool) :
    nextN (m + n) p = ((nextN m p).1 ++ (nextN n (nextN m p).2).1,
      (nextN n (nextN m p).2).2) := by
  induction m generalizing p with
  | zero => simp [nextN]
  | succ m ih =>
    rw [show m + 1 + n = (m + n) + 1 from by omega, nextN_succ, nextN_succ, ih]
    simp

theorem nextN_no_wrap (m : Nat) (p : Pool)
    (hc : p.currentIndex < p.sortedKeys.length)
    (hm : m + p.currentIndex ≤ p.sortedKeys.length) :
    (nextN m p).1 = ((p.sortedKeys.drop p.currentIndex).take m).map
        (fun k => findWorker p.workers k) ∧
    (nextN m p).2 =
      { p with currentIndex := (p.currentIndex + m) % p.sortedKeys.length } := by
  induction m generalizing p with
  | zero =>
    refine ⟨by simp [nextN], ?_⟩
    rw [Nat.add_zero, Nat.mod_eq_of_lt hc]
    rfl
  | succ m ih =>
    have hne : ¬ p.sortedKeys.length = 0 := by omega
    have hgf := getNextWorker_fst p
    have hgs := getNextWorker_snd p
    rw [if_neg hne] at hgf hgs
    rw [nextN_succ]
    have hdrop : p.sortedKeys.drop p.currentIndex =
        p.sortedKeys[p.currentIndex] :: p.sortedKeys.drop (p.currentIndex + 1) :=
      List.drop_eq_getElem_cons hc
    have hget : p.sortedKeys[p.currentIndex]? = some p.sortedKeys[p.currentIndex] :=
      List.getElem?_eq_getElem hc
    by_cases hcase : p.currentIndex + 1 < p.sortedKeys.length
    · have hmod : (p.currentIndex + 1) % p.sortedKeys.length = p.currentIndex + 1 :=
        Nat.mod_eq_of_lt hcase
      have hq := ih (getNextWorker p).2
      rw [hgs] at hq
      simp only [hmod] at hq
      have hq2 := hq hcase (by omega)
      constructor
      · rw [hgs]
        simp only [hmod]
        rw [hq2.1, hgf, hget, hdrop, List.take_succ_cons, List.map_cons]
        rfl
      · rw [hgs]
        simp only [hmod]
        rw [hq2.2]
        have heq : (p.currentIndex + 1 + m) % p.sortedKeys.length =
            (p.currentIndex + (m + 1)) % p.sortedKeys.length := by
          congr 1
          omega
        rw [heq]
    · have hend : p.currentIndex + 1 = p.sortedKeys.length := by omega
      have hm0 : m = 0 := by omega
      subst hm0
      have hmod : (p.currentIndex + 1) % p.sortedKeys.length = 0 := by
        rw [hend, Nat.mod_self]
      constructor
      · rw [hgf, hget, hdrop, List.take_succ_cons, List.map_cons]
        simp [nextN]
      · rw [hgs]
        have hz : (p.currentIndex + (0 + 1)) % p.sortedKeys.length = 0 := by
          rw [Nat.zero_add, hend, Nat.mod_self]
        rw [hz]
        simp only [nextN, hmod]

theorem nextN_full_cycle {p : Pool} (hi : PoolInv p) (hpos : 0 < p.sortedKeys.length) :
    (nextN p.sortedKeys.length p).1 =
      (p.sortedKeys.rotate p.currentIndex).map (fun k => findWorker p.workers k) ∧
    (nextN p.sortedKeys.length p).2 = p := by
  have hc : p.currentIndex < p.sortedKeys.length := by
    rcases hi.cursor with h | ⟨he, _⟩
    · exact h
    · rw [he] at hpos
      simp at hpos
  have hsplit : p.sortedKeys.length =
      (p.sortedKeys.length - p.currentIndex) + p.currentIndex := by omega
  rw [hsplit, nextN_add]
  have h1 := nextN_no_wrap (p.sortedKeys.length - p.currentIndex) p hc (by omega)
  have htake1 : (p.sortedKeys.drop p.currentIndex).take
      (p.sortedKeys.length - p.currentIndex) = p.sortedKeys.drop p.currentIndex := by
    apply List.take_of_length_le
    simp
  have hcur1 : (p.currentIndex + (p.sortedKeys.length - p.currentIndex)) %
      p.sortedKeys.length = 0 := by
    rw [show p.currentIndex + (p.sortedKeys.length - p.currentIndex) =
      p.sortedKeys.length from by omega, Nat.mod_self]
  rw [hcur1] at h1
  have h2 := nextN_no_wrap p.currentIndex { p with currentIndex := 0 }
    (by simpa using hpos) (by simp [Nat.le_of_lt hc])
  have hz : (0 + p.currentIndex) % p.sortedKeys.length = p.currentIndex := by
    rw [Nat.zero_add, Nat.mod_eq_of_lt hc]
  simp only [List.drop_zero] at h2
  rw [hz] at h2
  rw [h1.1, h1.2, h2.1, h2.2]
  constructor
  · rw [htake1, List.rotate_eq_drop_append_take (Nat.le_of_lt hc), List.map_append]
  · rfl

theorem findWorker_key_self {ws : List Worker} {w : Worker}
    (hnodup : (ws.map Worker.key).Nodup) (hw : w ∈ ws) :
    findWorker ws w.key = some w := by
  induction ws with
  | nil => simp at hw
  | cons x xs ih =>
    rw [List.map_cons, List.nodup_cons] at hnodup
    obtain ⟨hx, hxs⟩ := hnodup
    rw [findWorker_cons]
    by_cases hk : x.key = w.key
    · rcases List.mem_cons.1 hw with rfl | hw'
      · rw [if_pos hk]
      · exact absurd (hk ▸ List.mem_map_of_mem Worker.key hw') hx
    · rw [if_neg hk]
      rcases List.mem_cons.1 hw with rfl | hw'
      · exact absurd rfl hk
      · exact ih hxs hw'

/-- C4 counterexample: `poolW` is the reachable scenario-2 pool after one
`next()` (cursor 1, registry size 2). The next N = 2 calls return w1 then w2
— each key exactly once, but with uploadAt 100 before 50, which is not
ascending uploadAt order as the claim states for every non-empty registry. -/
theorem claim_C4_counterexample :
    size poolW = 2 ∧
    poolW.currentIndex = 1 ∧
    (nextN 2 poolW).1.map (Option.map Worker.key) = [some "w1", some "w2"] ∧
    (nextN 2 poolW).1.map (Option.map Worker.upload_at) = [some 100, some 50] ∧
    ¬ (100 : Int) ≤ 50 := by decide

/-- C4 (amended): for every reachable state with a non-empty registry,
calling `next()` exactly N = size times returns each distinct key exactly
once before any repeat — namely the rotation of the ascending-`uploadAt`
sequence starting at the cursor — and leaves the state back where it started;
the N calls are in fully ascending `uploadAt` order exactly in the
cursor-0 case (e.g. right after the first reconcile), as in the scenario-2
example `[w2,w1]`, `next() = w2, w1, w2, ...`. -/
theorem claim_C4_fairness {p : Pool} (h : Reachable p)
    (hpos : 0 < p.sortedKeys.length) :
    (nextN p.sortedKeys.length p).1 =
      (p.sortedKeys.rotate p.currentIndex).map (fun k => findWorker p.workers k) ∧
    (p.sortedKeys.rotate p.currentIndex).Nodup ∧
    (p.sortedKeys.rotate p.currentIndex).Perm (p.workers.map Worker.key) ∧
    p.sortedKeys.length = size p ∧
    (nextN p.sortedKeys.length p).2 = p ∧
    (p.currentIndex = 0 →
      (nextN p.sortedKeys.length p).1 = (sortByUploadAt p.workers).map (fun w => some w)) ∧
    List.Pairwise uploadLE (sortByUploadAt p.workers) := by
  have hi := reachable_inv h
  have hcycle := nextN_full_cycle hi hpos
  have hperm : (p.sortedKeys.rotate p.currentIndex).Perm (p.workers.map Worker.key) :=
    (List.rotate_perm p.sortedKeys p.currentIndex).trans (inv_sortedKeys_perm hi)
  refine ⟨hcycle.1, ?_, hperm, inv_length_sortedKeys hi, hcycle.2, ?_, ?_⟩
  · exact (List.rotate_perm p.sortedKeys p.currentIndex).nodup_iff.2 (inv_sortedKeys_nodup hi)
  · intro hc0
    rw [hcycle.1, hc0, List.rotate_zero, hi.skey, List.map_map]
    apply List.map_congr_left
    intro w hw
    have hwmem : w ∈ p.workers :=
      (List.perm_insertionSort uploadLE p.workers).mem_iff.1 hw
    simp only [Function.comp]
    exact findWorker_key_self hi.nodupKeys hwmem
  · exact List.sorted_insertionSort uploadLE p.workers

/-- Witness for C4 at the scenario-2 pool (cursor 0): the two calls return
w2 then w1, the ascending-uploadAt order. -/
theorem claim_C4_witness :
    (nextN pool2.sortedKeys.length pool2).1 =
      (sortByUploadAt pool2.workers).map (fun w => some w) ∧
    (nextN 2 pool2).1.map (Option.map Worker.key) = [some "w2", some "w1"] := by
  have h := claim_C4_fairness (Reachable.sync noParse 0 snap2 Reachable.init) (by decide)
  exact ⟨h.2.2.2.2.2.1 (by decide), by decide⟩

/-! ### Idempotence machinery -/

theorem Pool.ext' {p q : Pool} (h1 : p.workers = q.workers)
    (h2 : p.sortedKeys = q.sortedKeys) (h3 : p.currentIndex = q.currentIndex) :
    p = q := by
  cases p
  cases q
  simp_all

theorem resort_of_inv {p : Pool} (hi : PoolInv p) : _resort p = p := by
  apply Pool.ext'
  · exact resort_workers p
  · rw [resort_sortedKeys, hi.skey]
  · rcases hi.cursor with hc | ⟨he, hz⟩
    · have hck : p.sortedKeys[p.currentIndex]? = some p.sortedKeys[p.currentIndex] :=
        List.getElem?_eq_getElem hc
      by_cases hne : p.sortedKeys[p.currentIndex] = ""
      · rw [resort_cursor_falsy (Or.inr (hne ▸ hck))]
        rw [← hi.skey, if_neg (by omega)]
      · have hmem : p.sortedKeys[p.currentIndex] ∈ (sortByUploadAt p.workers).map Worker.key := by
          rw [← hi.skey]
          exact List.getElem?_mem hck
        rw [resort_cursor_key_mem hck hne hmem]
        rw [← hi.skey]
        exact List.indexOf_getElem (inv_sortedKeys_nodup hi) p.currentIndex hc
    · have hck : p.sortedKeys[p.currentIndex]? = none := by
        rw [he, hz]
        rfl
      rw [resort_cursor_falsy (Or.inl hck)]
      have hlen : ((sortByUploadAt p.workers).map Worker.key).length = 0 := by
        rw [← hi.skey, he]
        rfl
      rw [hz, if_pos (by omega)]

theorem beforeFind_isSome (ws : List Worker) (k : String) :
    ((ws.map fun w => (w.key, comparableOfWorker w)).find? (fun e => e.1 == k)).isSome =
      (findWorker ws k).isSome := by
  induction ws with
  | nil => rfl
  | cons x xs ih =>
    by_cases hx : x.key = k
    · simp [findWorker_cons, hx, List.find?_cons_of_pos]
    · simp only [List.map_cons, findWorker_cons, if_neg hx]
      rw [List.find?_cons_of_neg _ (by simpa using hx)]
      exact ih

theorem sync_keys_subset (parse : String → Option Int) (now : Int)
    (obj : List (String × Option RawWorker)) {p : Pool}
    (hnodup : (p.workers.map Worker.key).Nodup) :
    ∀ w ∈ (syncFromObject parse now obj p).1.workers, w.key ∈ obj.map Prod.fst := by
  rw [syncFromObject_fst, resort_workers]
  apply upsertAll_pred (fun w => w.key ∈ obj.map Prod.fst)
  · intro e he d hd hu
    exact List.mem_map_of_mem Prod.fst he
  · intro w hw
    have hmem := (removeMissing_mem _ _ hnodup w).1 hw
    rcases hmem.2 with hnk | hnotin
    · exact hnk
    · exact absurd (List.mem_map_of_mem Worker.key hmem.1) hnotin

theorem upsertAll_cons_noop {d : RawWorker} (parse : String → Option Int) (now : Int)
    (before : List (String × Comparable)) (k : String)
    (rest : List (String × Option RawWorker)) (q : Pool)
    (hurl : ¬ d.url = "")
    (hfind : findWorker q.workers k = some (workerOfRaw parse now k d))
    (hbefore : (before.find? (fun e => e.1 == k)).isSome = true) :
    upsertAll parse now before ((k, some d) :: rest) q =
      upsertAll parse now before rest q := by
  rw [upsertAll]
  simp only [toComparable]
  rw [if_neg hurl,
    updateWorker_false parse now k
      { url := d.url
        upload_at := .num (normalizeUploadAt parse now d.upload_at)
        version := if d.version = "" then "unknown" else d.version
        runner_by := if d.runner_by = "" then "unknown" else d.runner_by } q hurl,
    workerOfRaw_massaged, hfind, hbefore]
  have hsetw : setWorker (workerOfRaw parse now k d) q.workers = q.workers :=
    setWorker_eq_of_find hfind
  rw [hsetw]
  simp

theorem upsertAll_noop (parse : String → Option Int) (now : Int)
    (before : List (String × Comparable))
    (entries : List (String × Option RawWorker)) (q : Pool)
    (h : ∀ e ∈ entries, ∀ d : RawWorker, e.2 = some d → ¬ d.url = "" →
      findWorker q.workers e.1 = some (workerOfRaw parse now e.1 d) ∧
      (before.find? (fun x => x.1 == e.1)).isSome = true) :
    upsertAll parse now before entries q = (q, [], []) := by
  induction entries with
  | nil => rfl
  | cons e rest ih =>
    obtain ⟨k, raw⟩ := e
    cases hv : hasValidUrl raw with
    | false =>
      rw [upsertAll_cons_invalid parse now before k rest q hv]
      exact ih (fun e he => h e (by simp [he]))
    | true =>
      cases raw with
      | none => simp [hasValidUrl] at hv
      | some d =>
        have hurl : ¬ d.url = "" := by simpa [hasValidUrl] using hv
        obtain ⟨hfind, hbefore⟩ := h (k, some d) (by simp) d rfl hurl
        rw [upsertAll_cons_noop parse now before k rest q hurl hfind hbefore]
        exact ih (fun e he => h e (by simp [he]))

theorem workerOfRaw_det (parse : String → Option Int) (n₁ n₂ : Int) (k : String)
    (d : RawWorker) (h : timeIndep parse d.upload_at) :
    workerOfRaw parse n₁ k d = workerOfRaw parse n₂ k d := by
  unfold workerOfRaw
  rw [h n₁ n₂]

/-- C3 counterexample: the snapshot `snapSv` carries the unresolved
`{".sv":"timestamp"}` placeholder.  Reconciling it at receipt time 100 and
then reconciling the very same snapshot again at receipt time 200 yields a
non-empty diff on the second call (`updated = ["w"]`) and re-stamps the
record's `upload_at` from 100 to 200, contradicting the claimed idempotence
for placeholder-carrying snapshots. -/
theorem claim_C3_counterexample :
    (syncFromObject noParse 100 snapSv Pool.init).2 =
      { added := ["w"], removed := [], updated := [] } ∧
    findWorker poolSv.workers "w" =
      some { key := "w", url := "u", upload_at := 100, version := "unknown",
             runner_by := "unknown" } ∧
    (syncFromObject noParse 200 snapSv poolSv).2 =
      { added := [], removed := [], updated := ["w"] } ∧
    findWorker (syncFromObject noParse 200 snapSv poolSv).1.workers "w" =
      some { key := "w", url := "u", upload_at := 200, version := "unknown",
             runner_by := "unknown" } := by decide

/-- C3 (amended): reconcile is idempotent for snapshots (with JS-object keys,
hence key-distinct) all of whose entries have a time-independent raw
`upload_at` — i.e. a finite number, or a string with a fixed parse — or more
generally whenever the two calls observe the same receipt time: the second
reconcile of the same snapshot returns an unchanged pool (same mapping,
ordered sequence and cursor) and an empty diff.  For snapshots carrying the
placeholder or unparseable text and an advanced clock, idempotence fails (see
the counterexample). -/
theorem claim_C3_idempotent {p : Pool} (h : Reachable p) (parse : String → Option Int)
    (now₁ now₂ : Int) (obj : List (String × Option RawWorker))
    (hnodup : (obj.map Prod.fst).Nodup)
    (hdet : ∀ e ∈ obj, ∀ d : RawWorker, e.2 = some d → timeIndep parse d.upload_at) :
    (syncFromObject parse now₂ obj (syncFromObject parse now₁ obj p).1).1 =
      (syncFromObject parse now₁ obj p).1 ∧
    (syncFromObject parse now₂ obj (syncFromObject parse now₁ obj p).1).2 =
      { added := [], removed := [], updated := [] } := by
  have hp1 : Reachable (syncFromObject parse now₁ obj p).1 := Reachable.sync parse now₁ obj h
  have hi1 := reachable_inv hp1
  have hsub : ∀ w ∈ (syncFromObject parse now₁ obj p).1.workers, w.key ∈ obj.map Prod.fst :=
    sync_keys_subset parse now₁ obj (reachable_inv h).nodupKeys
  have hsubk : ∀ k ∈ (syncFromObject parse now₁ obj p).1.workers.map Worker.key,
      k ∈ obj.map Prod.fst := by
    intro k hk
    obtain ⟨w, hw, rfl⟩ := List.mem_map.1 hk
    exact hsub w hw
  have hrm := removeMissing_all_mem
    ((syncFromObject parse now₁ obj p).1.workers.map Worker.key)
    (syncFromObject parse now₁ obj p).1 hsubk
  have hrm1 : (removeMissing (obj.map Prod.fst)
      ((syncFromObject parse now₁ obj p).1.workers.map Worker.key)
      (syncFromObject parse now₁ obj p).1).1 = (syncFromObject parse now₁ obj p).1 := by
    rw [hrm]
  have hrm2 : (removeMissing (obj.map Prod.fst)
      ((syncFromObject parse now₁ obj p).1.workers.map Worker.key)
      (syncFromObject parse now₁ obj p).1).2 = [] := by
    rw [hrm]
  have hnoop : ∀ e ∈ obj, ∀ d : RawWorker, e.2 = some d → ¬ d.url = "" →
      findWorker (syncFromObject parse now₁ obj p).1.workers e.1 =
        some (workerOfRaw parse now₂ e.1 d) ∧
      (((syncFromObject parse now₁ obj p).1.workers.map
          fun w => (w.key, comparableOfWorker w)).find?
        (fun x => x.1 == e.1)).isSome = true := by
    intro e he d hd hurl
    have hmem : (e.1, some d) ∈ obj := by
      rw [← hd]
      exact he
    have hfind1 : findWorker (syncFromObject parse now₁ obj p).1.workers e.1 =
        some (workerOfRaw parse now₁ e.1 d) := by
      rw [syncFromObject_fst, resort_workers]
      exact upsertAll_find_valid parse now₁ _ obj _ hnodup hmem hurl
    constructor
    · rw [hfind1, workerOfRaw_det parse now₁ now₂ e.1 d (hdet e he d hd)]
    · rw [beforeFind_isSome, hfind1]
      rfl
  have hup := upsertAll_noop parse now₂
    ((syncFromObject parse now₁ obj p).1.workers.map fun w => (w.key, comparableOfWorker w))
    obj (syncFromObject parse now₁ obj p).1 hnoop
  have hup1 : (upsertAll parse now₂
      ((syncFromObject parse now₁ obj p).1.workers.map fun w => (w.key, comparableOfWorker w))
      obj (syncFromObject parse now₁ obj p).1).1 = (syncFromObject parse now₁ obj p).1 := by
    rw [hup]
  have hupA : (upsertAll parse now₂
      ((syncFromObject parse now₁ obj p).1.workers.map fun w => (w.key, comparableOfWorker w))
      obj (syncFromObject parse now₁ obj p).1).2.1 = [] := by
    rw [hup]
  have hupU : (upsertAll parse now₂
      ((syncFromObject parse now₁ obj p).1.workers.map fun w => (w.key, comparableOfWorker w))
      obj (syncFromObject parse now₁ obj p).1).2.2 = [] := by
    rw [hup]
  constructor
  · rw [syncFromObject_fst parse now₂ obj (syncFromObject parse now₁ obj p).1, hrm1, hup1]
    exact resort_of_inv hi1
  · rw [syncFromObject_snd parse now₂ obj (syncFromObject parse now₁ obj p).1, hrm1, hrm2,
      hupA, hupU]

/-- Witness for C3: reconciling the numeric scenario-2 snapshot a second time
(at a different receipt time) leaves `pool2` unchanged with an empty diff. -/
theorem claim_C3_witness :
    (syncFromObject noParse 7 snap2 pool2).1 = pool2 ∧
    (syncFromObject noParse 7 snap2 pool2).2 =
      { added := [], removed := [], updated := [] } := by
  have hdet : ∀ e ∈ snap2, ∀ d : RawWorker, e.2 = some d → timeIndep noParse d.upload_at := by
    intro e he d hd
    simp only [snap2, rawNum, List.mem_cons, List.not_mem_nil, or_false] at he
    rcases he with rfl | rfl <;>
      · injection hd with hd'
        subst hd'
        intro n₁ n₂
        rfl
  exact claim_C3_idempotent Reachable.init noParse 0 7 snap2 (by decide) hdet
